import Mathlib

/-!
Verification of the `cs161-proj1-reference` RSA command-line program
(`main.c`).  The codec (`encode`/`decode`), the decimal parsers
(GMP `mpz_set_str` in base 10, C `strtoul`), and the control flow of
`decrypt_mode`, `genkey_mode` and `main` are embedded as executable Lean
functions.  The RSA transforms live in `rsa.c`, which is not part of the
repository snapshot; they are modelled from the specification where a claim
needs them.  File-system and stream I/O are abstracted: key loading is an
explicit `Option RsaKey` argument, and stream writes are assumed to succeed
except for the return-value convention of `fwrite` itself, which is modelled
from the C standard.
-/

namespace RsaCli

/-! ## Codec: byte string to integer (`encode`) and back (`decode`) -/

/-- Big-endian value of a byte list: first byte most significant.
This is the number `mpz_import(x, count, 1, 1, 0, 0, s)` stores in `x`
when `s` holds the listed bytes. -/
def beVal (s : List Nat) : Nat :=
  s.foldl (fun a b => 256 * a + b) 0

/-- C `strlen` on a byte buffer: the number of bytes before the first zero
byte.  (`main.c` calls `strlen(s)` to choose how many bytes to import.) -/
def strlen (s : List Nat) : Nat :=
  (s.takeWhile (fun b => b != 0)).length

/-- The `encode` of `main.c` line 22-25: `mpz_import(x, strlen(s), 1, 1, 0, 0, s)`,
reading `strlen s` bytes of `s` most-significant first. -/
def encode (s : List Nat) : Nat :=
  beVal (s.take (strlen s))

/-- Fuel-indexed base-256 export; `fuel ≥ x` is always enough because the
value shrinks by a factor 256 each step. -/
def decodeAux : Nat → Nat → List Nat
  | 0, _ => []
  | fuel + 1, x => if x = 0 then [] else decodeAux fuel (x / 256) ++ [x % 256]

/-- The `decode` of `main.c` line 31-52: `mpz_export(NULL, &count, 1, 1, 0, 0, x)`
produces the minimal big-endian byte representation of `x`, and exports
nothing for `x = 0`.  The reported length `*len` is the list length. -/
def decode (x : Nat) : List Nat :=
  decodeAux x x

/-! ## Basic codec lemmas -/

theorem decodeAux_zero (fuel : Nat) : decodeAux fuel 0 = [] := by
  cases fuel <;> simp [decodeAux]

theorem decodeAux_fuel_irrel (f₁ : Nat) :
    ∀ f₂ x, x ≤ f₁ → x ≤ f₂ → decodeAux f₁ x = decodeAux f₂ x := by
  induction f₁ with
  | zero =>
    intro f₂ x hx _
    have : x = 0 := Nat.le_zero.mp hx
    subst this
    simp [decodeAux_zero]
  | succ f ih =>
    intro f₂ x hx hx₂
    by_cases h0 : x = 0
    · subst h0; simp [decodeAux_zero]
    · cases f₂ with
      | zero =>
        exact absurd (Nat.le_zero.mp hx₂) h0
      | succ g =>
        have hdiv : x / 256 < x := Nat.div_lt_self (Nat.pos_of_ne_zero h0) (by norm_num)
        have h₁ : x / 256 ≤ f := Nat.lt_succ_iff.mp (Nat.lt_of_lt_of_le hdiv hx)
        have h₂ : x / 256 ≤ g := Nat.lt_succ_iff.mp (Nat.lt_of_lt_of_le hdiv hx₂)
        simp [decodeAux, h0, ih g (x / 256) h₁ h₂]

theorem decode_eq_decodeAux (x fuel : Nat) (h : x ≤ fuel) :
    decode x = decodeAux fuel x :=
  decodeAux_fuel_irrel x fuel x le_rfl h

theorem beVal_append_singleton (l : List Nat) (b : Nat) :
    beVal (l ++ [b]) = 256 * beVal l + b := by
  simp [beVal, List.foldl_append]

theorem beVal_decodeAux (fuel : Nat) :
    ∀ x, x ≤ fuel → beVal (decodeAux fuel x) = x := by
  induction fuel with
  | zero =>
    intro x hx
    have : x = 0 := Nat.le_zero.mp hx
    subst this
    simp [decodeAux, beVal]
  | succ f ih =>
    intro x hx
    by_cases h0 : x = 0
    · subst h0; simp [decodeAux, beVal]
    · have hdiv : x / 256 < x := Nat.div_lt_self (Nat.pos_of_ne_zero h0) (by norm_num)
      have h₁ : x / 256 ≤ f := Nat.lt_succ_iff.mp (Nat.lt_of_lt_of_le hdiv hx)
      simp [decodeAux, h0, beVal_append_singleton, ih (x / 256) h₁]
      omega

theorem beVal_decode (x : Nat) : beVal (decode x) = x :=
  beVal_decodeAux x x le_rfl

theorem decodeAux_eq_nil (fuel x : Nat) (hx : x ≤ fuel) :
    decodeAux fuel x = [] ↔ x = 0 := by
  constructor
  · intro h
    by_contra h0
    cases fuel with
    | zero => exact h0 (Nat.le_zero.mp hx)
    | succ f =>
      simp [decodeAux, h0] at h
  · intro h; subst h; exact decodeAux_zero fuel

theorem decodeAux_head_ne_zero (fuel : Nat) :
    ∀ x b, x ≤ fuel → (decodeAux fuel x).head? = some b → b ≠ 0 := by
  induction fuel with
  | zero =>
    intro x b _ hb
    simp [decodeAux] at hb
  | succ f ih =>
    intro x b hx hb
    by_cases h0 : x = 0
    · subst h0; simp [decodeAux] at hb
    · have hdiv : x / 256 < x := Nat.div_lt_self (Nat.pos_of_ne_zero h0) (by norm_num)
      have h₁ : x / 256 ≤ f := Nat.lt_succ_iff.mp (Nat.lt_of_lt_of_le hdiv hx)
      simp only [decodeAux, h0, if_false] at hb
      by_cases hnil : decodeAux f (x / 256) = []
      · have hq : x / 256 = 0 := (decodeAux_eq_nil f (x / 256) h₁).mp hnil
        rw [hnil] at hb
        simp at hb
        have hlt : x < 256 := by omega
        rw [Nat.mod_eq_of_lt hlt] at hb
        omega
      · rw [List.head?_append_of_ne_nil _ hnil] at hb
        exact ih (x / 256) b h₁ hb

theorem decode_head_ne_zero (x b : Nat) (hb : (decode x).head? = some b) : b ≠ 0 :=
  decodeAux_head_ne_zero x x b le_rfl hb

theorem decodeAux_length_le (fuel : Nat) :
    ∀ x k, x ≤ fuel → x < 256 ^ k → (decodeAux fuel x).length ≤ k := by
  induction fuel with
  | zero =>
    intro x k _ _
    simp [decodeAux]
  | succ f ih =>
    intro x k hx hk
    by_cases h0 : x = 0
    · subst h0; simp [decodeAux]
    · have hdiv : x / 256 < x := Nat.div_lt_self (Nat.pos_of_ne_zero h0) (by norm_num)
      have h₁ : x / 256 ≤ f := Nat.lt_succ_iff.mp (Nat.lt_of_lt_of_le hdiv hx)
      cases k with
      | zero =>
        simp at hk
        omega
      | succ j =>
        have hq : x / 256 < 256 ^ j := by
          rw [Nat.div_lt_iff_lt_mul (by norm_num : (0:Nat) < 256)]
          calc x < 256 ^ (j + 1) := hk
            _ = 256 ^ j * 256 := by ring
        simp only [decodeAux, h0, if_false, List.length_append, List.length_singleton]
        have := ih (x / 256) j h₁ hq
        omega

theorem beVal_lt_pow (s : List Nat) (hs : ∀ b ∈ s, b < 256) :
    beVal s < 256 ^ s.length := by
  induction s using List.reverseRecOn with
  | nil => simp [beVal]
  | append_singleton l b ihl =>
    have hl : ∀ c ∈ l, c < 256 := fun c hc => hs c (List.mem_append_left _ hc)
    have hb : b < 256 := hs b (List.mem_append_right _ (List.mem_singleton_self b))
    have h1 : beVal l < 256 ^ l.length := ihl hl
    rw [beVal_append_singleton]
    calc 256 * beVal l + b < 256 * beVal l + 256 := by omega
      _ = 256 * (beVal l + 1) := by ring
      _ ≤ 256 * 256 ^ l.length := by
          exact Nat.mul_le_mul_left 256 h1
      _ = 256 ^ (l ++ [b]).length := by
          simp [List.length_append, pow_succ]
          ring

theorem decode_length_minimal (x : Nat) (s : List Nat)
    (hs : ∀ b ∈ s, b < 256) (hv : beVal s = x) :
    (decode x).length ≤ s.length :=
  decodeAux_length_le x x s.length le_rfl (hv ▸ beVal_lt_pow s hs)

theorem le_foldl_beVal (t : List Nat) :
    ∀ a : Nat, a ≤ t.foldl (fun u b => 256 * u + b) a := by
  induction t with
  | nil => intro a; simp
  | cons c t iht =>
    intro a
    calc a ≤ 256 * a + c := by omega
      _ ≤ t.foldl (fun u b => 256 * u + b) (256 * a + c) := iht (256 * a + c)
      _ = (c :: t).foldl (fun u b => 256 * u + b) a := by simp [List.foldl_cons]

theorem beVal_pos_of_head (s : List Nat) (h : Nat) (hh : s.head? = some h)
    (h0 : h ≠ 0) : 0 < beVal s := by
  cases s with
  | nil => simp at hh
  | cons a t =>
    have ha : a = h := by simpa using hh
    have hle : a ≤ beVal (a :: t) := by
      simpa [beVal, List.foldl_cons] using le_foldl_beVal t a
    omega

theorem decode_unfold_pos (x : Nat) (hx : 0 < x) :
    decode x = decode (x / 256) ++ [x % 256] := by
  cases x with
  | zero => omega
  | succ m =>
    show decodeAux (m + 1) (m + 1) = decode ((m + 1) / 256) ++ [(m + 1) % 256]
    have h1 : (m + 1) / 256 ≤ m := by
      have := Nat.div_lt_self (Nat.succ_pos m) (by norm_num : (1:Nat) < 256)
      omega
    rw [decode_eq_decodeAux ((m + 1) / 256) m h1]
    simp [decodeAux]

theorem decode_beVal (s : List Nat) (hs : ∀ b ∈ s, b < 256)
    (hh : ∀ b, s.head? = some b → b ≠ 0) : decode (beVal s) = s := by
  induction s using List.reverseRecOn with
  | nil => simp [beVal, decode, decodeAux]
  | append_singleton l b ihl =>
    have hb : b < 256 := hs b (List.mem_append_right _ (List.mem_singleton_self b))
    have hl : ∀ c ∈ l, c < 256 := fun c hc => hs c (List.mem_append_left _ hc)
    cases l with
    | nil =>
      have hb0 : b ≠ 0 := hh b (by simp)
      simp only [List.nil_append]
      have hvb : beVal [b] = b := by simp [beVal]
      rw [hvb, decode_unfold_pos b (Nat.pos_of_ne_zero hb0),
          Nat.div_eq_of_lt hb, Nat.mod_eq_of_lt hb]
      simp [decode, decodeAux]
    | cons a t =>
      have ha0 : a ≠ 0 := hh a (by simp)
      have hlpos : 0 < beVal (a :: t) := beVal_pos_of_head (a :: t) a rfl ha0
      have hx : beVal ((a :: t) ++ [b]) = 256 * beVal (a :: t) + b :=
        beVal_append_singleton (a :: t) b
      set A := beVal (a :: t) with hA
      have hxpos : 0 < 256 * A + b := by positivity
      have hdivA : (256 * A + b) / 256 = A := by omega
      have hmodb : (256 * A + b) % 256 = b := by omega
      have hIH : decode A = a :: t := ihl hl (fun c hc => hh c (by simp at hc ⊢; exact hc))
      rw [hx, decode_unfold_pos _ hxpos, hdivA, hmodb, hIH]

theorem decodeAux_mem_lt (fuel : Nat) :
    ∀ x b, x ≤ fuel → b ∈ decodeAux fuel x → b < 256 := by
  induction fuel with
  | zero =>
    intro x b _ hb
    simp [decodeAux] at hb
  | succ f ih =>
    intro x b hx hb
    by_cases h0 : x = 0
    · subst h0; simp [decodeAux] at hb
    · have hdiv : x / 256 < x := Nat.div_lt_self (Nat.pos_of_ne_zero h0) (by norm_num)
      have h₁ : x / 256 ≤ f := Nat.lt_succ_iff.mp (Nat.lt_of_lt_of_le hdiv hx)
      simp only [decodeAux, h0, if_false, List.mem_append, List.mem_singleton] at hb
      rcases hb with hb | hb
      · exact ih (x / 256) b h₁ hb
      · subst hb; exact Nat.mod_lt x (by norm_num)

theorem decode_mem_lt (x b : Nat) (hb : b ∈ decode x) : b < 256 :=
  decodeAux_mem_lt x x b le_rfl hb

theorem take_strlen_eq_takeWhile (s : List Nat) :
    s.take (strlen s) = s.takeWhile (fun b => b != 0) := by
  induction s with
  | nil => simp [strlen]
  | cons a t iht =>
    by_cases ha : a = 0
    · subst ha; simp [strlen, List.takeWhile_cons]
    · have ha' : (a != 0) = true := by simpa using ha
      simp [strlen, List.takeWhile_cons, ha']
      simpa [strlen] using iht

theorem takeWhile_ne_zero_of_all (s : List Nat) (hs : ∀ b ∈ s, b ≠ 0) :
    s.takeWhile (fun b => b != 0) = s := by
  induction s with
  | nil => simp
  | cons a t iht =>
    have ha : (a != 0) = true := by simpa using hs a (by simp)
    simp [List.takeWhile_cons, ha, iht fun b hb => hs b (List.mem_cons_of_mem a hb)]

theorem takeWhile_append_zero (s t : List Nat) (hs : ∀ b ∈ s, b ≠ 0) :
    (s ++ 0 :: t).takeWhile (fun b => b != 0) = s := by
  induction s with
  | nil => simp [List.takeWhile_cons]
  | cons a r ihr =>
    have ha : (a != 0) = true := by simpa using hs a (by simp)
    simp only [List.cons_append, List.takeWhile_cons, ha, if_true]
    simp [ihr fun b hb => hs b (List.mem_cons_of_mem a hb)]

theorem encode_eq_beVal_of_ne_zero (s : List Nat) (hs : ∀ b ∈ s, b ≠ 0) :
    encode s = beVal s := by
  unfold encode
  rw [take_strlen_eq_takeWhile, takeWhile_ne_zero_of_all s hs]

/-! ## Decimal parsing

`decrypt_mode` parses its ciphertext argument with `mpz_set_str(c, c_str, 10)`
and `genkey_mode` parses its bit count with `strtoul(numbits_str, &endp, 10)`.
Both are modelled character-exactly from their documented semantics:
`mpz_set_str` skips leading white space, accepts one optional minus sign,
requires the next character to be a decimal digit, and thereafter ignores
white space anywhere while rejecting any other non-digit; `strtoul` skips
leading white space, accepts one optional sign, consumes the longest run of
digits (none consumed means `endp == nptr`), clamps to `ULONG_MAX` with
`ERANGE` on overflow, and negates modulo 2^64 on a minus sign. -/

/-- C `isspace` in the default locale. -/
def isSpaceC (c : Char) : Bool :=
  c == ' ' || c == '\t' || c == '\n' || c == '\x0b' || c == '\x0c' || c == '\r'

/-- Decimal digit test. -/
def isDigit10 (c : Char) : Bool :=
  '0' ≤ c && c ≤ '9'

/-- Scan the remainder of an `mpz_set_str` base-10 operand: white space is
ignored, digits are accumulated, anything else is a parse error. -/
def scanDigits10 : List Char → Nat → Option Nat
  | [], acc => some acc
  | c :: r, acc =>
    if isSpaceC c then scanDigits10 r acc
    else if isDigit10 c then scanDigits10 r (10 * acc + (c.toNat - 48))
    else none

/-- GMP `mpz_set_str` in base 10, as called on `main.c` line 110; `none`
models the nonzero (error) return value. -/
def mpz_set_str10 (s : List Char) : Option Int :=
  let afterWs := s.dropWhile isSpaceC
  match afterWs with
  | '-' :: r =>
    match r with
    | [] => none
    | c :: _ =>
      if isDigit10 c then (scanDigits10 r 0).map (fun v => -(v : Int)) else none
  | r =>
    match r with
    | [] => none
    | c :: _ =>
      if isDigit10 c then (scanDigits10 r 0).map (fun v => (v : Int)) else none

/-- Largest `unsigned long` value on the reference LP64 platform. -/
def ULONG_MAX : Nat := 2 ^ 64 - 1

/-- Largest `unsigned int` value on the reference platform. -/
def UINT_MAX : Nat := 2 ^ 32 - 1

/-- Result of `strtoul(nptr, &endp, 10)`: the returned value, the number of
characters consumed (`endp - nptr`, zero when no conversion was performed),
and whether `errno` was set to `ERANGE`. -/
structure StrtoulResult where
  value : Nat
  consumed : Nat
  erange : Bool
deriving DecidableEq, Repr

/-- C `strtoul` in base 10 on an LP64 platform, per C99 7.20.1.4: skip white
space, one optional `+` or `-`, then the longest run of decimal digits; with
no digits there is no conversion and `endp = nptr`; on overflow the value is
`ULONG_MAX` and `errno` is `ERANGE`; a minus sign negates the value in the
return type (modulo 2^64). -/
def strtoul10 (s : List Char) : StrtoulResult :=
  let ws := s.takeWhile isSpaceC
  let afterWs := s.dropWhile isSpaceC
  let signLen : Nat :=
    match afterWs with
    | '-' :: _ => 1
    | '+' :: _ => 1
    | _ => 0
  let neg : Bool :=
    match afterWs with
    | '-' :: _ => true
    | _ => false
  let afterSign := afterWs.drop signLen
  let digits := afterSign.takeWhile isDigit10
  if digits.isEmpty then ⟨0, 0, false⟩
  else
    let raw := digits.foldl (fun a c => 10 * a + (c.toNat - 48)) 0
    if ULONG_MAX < raw then ⟨ULONG_MAX, ws.length + signLen + digits.length, true⟩
    else
      ⟨if neg then (2 ^ 64 - raw % 2 ^ 64) % 2 ^ 64 else raw,
       ws.length + signLen + digits.length, false⟩

/-! ## RSA keys and transforms

`rsa.h` / `rsa.c` are not part of the repository snapshot; the key record and
the two transforms are modelled from the specification. -/

/-- Modelled from the spec: `RsaKey` (§3) holds the modulus `n`, the public
exponent `e`, and, in private form, the private exponent `d`; `rsa.c` with
`struct rsa_key` is missing from the snapshot. -/
structure RsaKey where
  n : Int
  e : Int
  d : Int
deriving DecidableEq, Repr

/-- Modelled from the spec: `rsa_encrypt` (§4.2) returns `m ^ e mod n`;
`rsa.c` is missing from the snapshot.  `mpz_powm` reduces into `[0, n)` for a
positive modulus, which `Int.emod` matches. -/
def rsa_encrypt (m : Int) (key : RsaKey) : Int :=
  (m ^ key.e.toNat) % key.n

/-- Modelled from the spec: `rsa_decrypt` (§4.2) returns `c ^ d mod n`;
`rsa.c` is missing from the snapshot. -/
def rsa_decrypt (c : Int) (key : RsaKey) : Int :=
  (c ^ key.d.toNat) % key.n

/-! ## The `decrypt` subcommand (`decrypt_mode`, `main.c` lines 97-139) -/

/-- Return value of `fwrite(ptr, size, nmemb, stream)` on a stream with no
I/O error, modelled from C99 7.19.8.2: the number of complete elements
written, and zero whenever `size` or `nmemb` is zero (in which case the
stream is left unchanged). -/
def fwriteRet (size nmemb : Nat) : Nat :=
  if size = 0 ∨ nmemb = 0 then 0 else nmemb

/-- Observable outcome of one run of `decrypt_mode`: the process exit code,
the diagnostic printed to standard error (if any), the bytes written to
standard output, and whether `rsa_key_load_private` was ever invoked. -/
structure DecryptOutcome where
  exitCode : Nat
  stderrMsg : Option String
  stdoutBytes : List Nat
  keyLoadAttempted : Bool
deriving DecidableEq, Repr

/-- Everything `decrypt_mode` of `main.c` does after the ciphertext parse:
load the private key (the file-system interaction is abstracted into the
`keyLoad` argument, `none` meaning `rsa_key_load_private` failed; error:
"error reading key file", exit 1); decrypt, decode, and `fwrite` the `len`
decoded bytes to standard output, treating an `fwrite` return value other
than 1 as "error writing plaintext" with exit 1.  `mpz_export` inside
`decode` uses the absolute value, hence `Int.natAbs`. -/
def decrypt_after_parse (c : Int) (keyLoad : Option RsaKey) : DecryptOutcome :=
  match keyLoad with
  | none => ⟨1, some "error reading key file", [], true⟩
  | some key =>
    let m := rsa_decrypt c key
    let message := decode m.natAbs
    let len := message.length
    if fwriteRet len 1 ≠ 1 then ⟨1, some "error writing plaintext", [], true⟩
    else ⟨0, none, message, true⟩

/-- The `decrypt_mode` of `main.c` (lines 97-139): parse `c_str` with
`mpz_set_str(c, c_str, 10)` — a nonzero return prints "could not parse
ciphertext" and exits 1 before the key file is touched — then hand over to
`decrypt_after_parse`. -/
def decrypt_mode (c_str : List Char) (keyLoad : Option RsaKey) : DecryptOutcome :=
  match mpz_set_str10 c_str with
  | none => ⟨1, some "could not parse ciphertext", [], false⟩
  | some c => decrypt_after_parse c keyLoad

/-! ## The `genkey` subcommand (`genkey_mode`, `main.c` lines 146-182) -/

/-- Observable outcome of one run of `genkey_mode`: the exit code, the
diagnostic on standard error (if any), and `some numbits` exactly when
`rsa_genkey(&key, numbits)` was reached.  Writing the generated key to
standard output is assumed to succeed (no-I/O-error environment), which is
the source's `rc = 0` path. -/
structure GenkeyOutcome where
  exitCode : Nat
  stderrMsg : Option String
  genkeyCalled : Option Nat
deriving DecidableEq, Repr

/-- The `genkey_mode` of `main.c`: `strtoul(numbits_str, &endp, 10)`, then
the three-way parse check `endp == numbits_str || errno != 0 || *endp != '\0'`
("could not parse integer", exit 1), then the range check `n > UINT_MAX`
("integer is too large", exit 1), and only past both is `rsa_genkey`
invoked with `(unsigned int) n`. -/
def genkey_mode (numbits_str : List Char) : GenkeyOutcome :=
  let r := strtoul10 numbits_str
  if r.consumed = 0 ∨ r.erange = true ∨ r.consumed ≠ numbits_str.length then
    ⟨1, some "could not parse integer", none⟩
  else if UINT_MAX < r.value then
    ⟨1, some "integer is too large", none⟩
  else
    ⟨0, none, some r.value⟩

/-! ## Argument dispatch (`main`, `main.c` lines 184-233) -/

/-- What `main` does with a given argument vector before (or instead of)
entering a subcommand. -/
inductive MainAction where
  | usageStderr
  | usageStdout
  | argError (msg : String)
  | runEncrypt (keyfile message : String)
  | runDecrypt (keyfile cstr : String)
  | runGenkey (numbits : String)
deriving DecidableEq, Repr

/-- The argument handling of `main`: fewer than two `argv` entries prints
usage to standard error (exit 1); `-h`/`--help`/`help` prints usage to
standard output (exit 0); each known subcommand checks `argc` (4, 4, 3
respectively) and prints its own diagnostic on a mismatch; any other command
falls through to usage on standard error (exit 1). -/
def mainDispatch : List String → MainAction
  | [] => .usageStderr
  | [_] => .usageStderr
  | _ :: command :: rest =>
    if command = "-h" ∨ command = "--help" ∨ command = "help" then
      .usageStdout
    else if command = "encrypt" then
      if rest.length = 2 then .runEncrypt (rest.getD 0 "") (rest.getD 1 "")
      else .argError "encrypt needs a key filename and a message"
    else if command = "decrypt" then
      if rest.length = 2 then .runDecrypt (rest.getD 0 "") (rest.getD 1 "")
      else .argError "decrypt needs a key filename and a ciphertext"
    else if command = "genkey" then
      if rest.length = 1 then .runGenkey (rest.getD 0 "")
      else .argError "genkey needs a number of bits"
    else .usageStderr

/-- Exit code decided by `main` itself, before any subcommand runs: `some`
for the immediate-return paths, `none` when control passes to a mode
function. -/
def mainImmediateExit : MainAction → Option Nat
  | .usageStderr => some 1
  | .usageStdout => some 0
  | .argError _ => some 1
  | _ => none

/-- Whether the action prints the usage text. -/
def printsUsage : MainAction → Bool
  | .usageStderr => true
  | .usageStdout => true
  | _ => false

/-! ## Helper lemmas about the mode functions -/

theorem decrypt_mode_eq_of_parse (cstr : List Char) (c : Int) (keyLoad : Option RsaKey)
    (hp : mpz_set_str10 cstr = some c) :
    decrypt_mode cstr keyLoad = decrypt_after_parse c keyLoad := by
  unfold decrypt_mode
  rw [hp]

theorem decrypt_mode_after_parse (cstr : List Char) (c : Int) (keyLoad : Option RsaKey)
    (hp : mpz_set_str10 cstr = some c) :
    (decrypt_mode cstr keyLoad).keyLoadAttempted = true ∧
    (decrypt_mode cstr keyLoad).stderrMsg ≠ some "could not parse ciphertext" := by
  rw [decrypt_mode_eq_of_parse cstr c keyLoad hp]
  cases keyLoad with
  | none =>
    refine ⟨rfl, ?_⟩
    show (some "error reading key file" : Option String) ≠ some "could not parse ciphertext"
    decide
  | some key =>
    have hsplit : decrypt_after_parse c (some key) =
        if fwriteRet (decode (rsa_decrypt c key).natAbs).length 1 ≠ 1 then
          ⟨1, some "error writing plaintext", [], true⟩
        else ⟨0, none, decode (rsa_decrypt c key).natAbs, true⟩ := rfl
    rw [hsplit]
    by_cases hw : fwriteRet (decode (rsa_decrypt c key).natAbs).length 1 ≠ 1
    · rw [if_pos hw]
      exact ⟨rfl, by decide⟩
    · rw [if_neg hw]
      exact ⟨rfl, by simp⟩

/-! ## Claim theorems -/

/-- C7: for every integer `x ≥ 0`, `decode x` is the minimal big-endian
unsigned byte representation of `x` — its big-endian value is `x`, no
representation with in-range bytes is shorter, its leading byte is nonzero,
all bytes are in range — and `decode 0` is the empty byte string with
reported length 0. -/
theorem decode_minimal_big_endian (x : Nat) :
    beVal (decode x) = x ∧
    (∀ b, (decode x).head? = some b → b ≠ 0) ∧
    (∀ b ∈ decode x, b < 256) ∧
    (∀ s : List Nat, (∀ b ∈ s, b < 256) → beVal s = x → (decode x).length ≤ s.length) ∧
    decode 0 = [] ∧ (decode 0).length = 0 :=
  ⟨beVal_decode x, fun b hb => decode_head_ne_zero x b hb,
   fun b hb => decode_mem_lt x b hb,
   fun s hs hv => decode_length_minimal x s hs hv, rfl, rfl⟩

/-- Witness for C7 at `x = 1000`. -/
theorem decode_minimal_big_endian_witness : beVal (decode 1000) = 1000 :=
  (decode_minimal_big_endian 1000).1

/-- C1, counterexample: at `x = 256` the minimal representation is the byte
string `[1, 0]`, whose interior zero byte makes `strlen`-based `encode` stop
after one byte, so `encode (decode 256) = 1 ≠ 256`. -/
theorem encode_decode_256_ne :
    decode 256 = [1, 0] ∧ encode (decode 256) = 1 ∧ encode (decode 256) ≠ 256 := by
  decide

/-- C1, amended: for every integer `x ≥ 0` whose minimal big-endian
representation contains no zero byte, `encode (decode x) = x`. -/
theorem encode_decode_of_no_zero_byte (x : Nat)
    (h : ∀ b ∈ decode x, b ≠ 0) : encode (decode x) = x := by
  rw [encode_eq_beVal_of_ne_zero (decode x) h, beVal_decode]

/-- Witness for the amended C1 at `x = 257` (`decode 257 = [1, 1]`). -/
theorem encode_decode_of_no_zero_byte_witness :
    (∀ b ∈ decode 257, b ≠ 0) ∧ encode (decode 257) = 257 :=
  ⟨by decide, encode_decode_of_no_zero_byte 257 (by decide)⟩

/-- C2, counterexample: the byte string `[1, 0]` does not start with a zero
byte, yet `encode` reads only `strlen = 1` byte of it, so the round trip
returns `[1]`, not `[1, 0]`. -/
theorem decode_encode_interior_zero_ne :
    ([1, 0] : List Nat).head? = some 1 ∧
    decode (encode [1, 0]) = [1] ∧
    decode (encode [1, 0]) ≠ [1, 0] := by
  decide

/-- C2, amended: for every byte string `s` containing no zero byte (all
bytes in `1..255`), `decode (encode s) = s` and the reported length equals
the original length. -/
theorem decode_encode_of_no_zero_byte (s : List Nat)
    (hs : ∀ b ∈ s, 0 < b ∧ b < 256) :
    decode (encode s) = s ∧ (decode (encode s)).length = s.length := by
  have h0 : ∀ b ∈ s, b ≠ 0 := fun b hb => by have := (hs b hb).1; omega
  have hlt : ∀ b ∈ s, b < 256 := fun b hb => (hs b hb).2
  have hh : ∀ b, s.head? = some b → b ≠ 0 := fun b hb =>
    h0 b (List.mem_of_mem_head? hb)
  rw [encode_eq_beVal_of_ne_zero s h0, decode_beVal s hlt hh]
  exact ⟨rfl, rfl⟩

/-- Witness for the amended C2 at `s = [104, 105]` (the bytes of "hi"). -/
theorem decode_encode_of_no_zero_byte_witness :
    decode (encode [104, 105]) = [104, 105] :=
  (decode_encode_of_no_zero_byte [104, 105] (by decide)).1

/-- C8: `encode` reads exactly `strlen` bytes, i.e. the prefix of its input
before the first zero byte: a buffer with an interior zero byte is truncated
there, and the bytes after the zero never influence the result. -/
theorem encode_truncates_at_zero_byte (s t u : List Nat)
    (hs : ∀ b ∈ s, b ≠ 0) :
    encode (s ++ 0 :: t) = encode s ∧
    strlen (s ++ 0 :: t) = s.length ∧
    encode (s ++ 0 :: t) = encode (s ++ 0 :: u) := by
  have h1 : (s ++ 0 :: t).takeWhile (fun b => b != 0) = s := takeWhile_append_zero s t hs
  have h2 : (s ++ 0 :: u).takeWhile (fun b => b != 0) = s := takeWhile_append_zero s u hs
  have h3 : s.takeWhile (fun b => b != 0) = s := takeWhile_ne_zero_of_all s hs
  refine ⟨?_, ?_, ?_⟩
  · unfold encode
    rw [take_strlen_eq_takeWhile, take_strlen_eq_takeWhile, h1, h3]
  · unfold strlen
    rw [h1]
  · unfold encode
    rw [take_strlen_eq_takeWhile, take_strlen_eq_takeWhile, h1, h2]

/-- Witness for C8 at `s = [7]`, `t = [1]`, `u = [2]`. -/
theorem encode_truncates_at_zero_byte_witness :
    encode [7, 0, 1] = encode [7] ∧
    strlen [7, 0, 1] = 1 ∧
    encode [7, 0, 1] = encode [7, 0, 2] :=
  encode_truncates_at_zero_byte [7] [1] [2] (by decide)

/-- C3: the empty message encodes to the integer 0 (and encrypts to the
ciphertext 0), but decrypting that ciphertext does not exit 0: the decoded
plaintext has length 0, `fwrite(message, 0, 1, stdout)` returns 0 by C99
7.19.8.2, the `!= 1` check misfires, and `decrypt_mode` reports
"error writing plaintext" and exits 1 — with 0 bytes on standard output.
The key is the valid RSA key `n = 15, e = 3, d = 3`. -/
theorem decrypt_of_encrypted_empty_write_error :
    encode [] = 0 ∧
    rsa_encrypt (encode []) ⟨15, 3, 3⟩ = 0 ∧
    decrypt_mode ['0'] (some ⟨15, 3, 3⟩) =
      ⟨1, some "error writing plaintext", [], true⟩ := by
  decide

/-- C4, counterexample: `rsa encrypt` with no further arguments exits via
the subcommand-specific diagnostic "encrypt needs a key filename and a
message" on standard error, not via the usage text. -/
theorem main_encrypt_two_args_no_usage :
    mainDispatch ["rsa", "encrypt"] =
      .argError "encrypt needs a key filename and a message" ∧
    mainDispatch ["rsa", "encrypt"] ≠ .usageStderr ∧
    printsUsage (mainDispatch ["rsa", "encrypt"]) = false ∧
    mainImmediateExit (mainDispatch ["rsa", "encrypt"]) = some 1 := by
  decide

/-- C4, amended: a missing or unrecognized command prints the usage text to
standard error and exits 1, while a wrong argument count for `encrypt`,
`decrypt`, or `genkey` exits 1 with a subcommand-specific message on
standard error and does not print the usage text. -/
theorem main_bad_invocation (prog cmd : String) (rest : List String)
    (hcmd : cmd ≠ "-h" ∧ cmd ≠ "--help" ∧ cmd ≠ "help" ∧
            cmd ≠ "encrypt" ∧ cmd ≠ "decrypt" ∧ cmd ≠ "genkey") :
    mainDispatch [] = .usageStderr ∧
    mainDispatch [prog] = .usageStderr ∧
    mainDispatch (prog :: cmd :: rest) = .usageStderr ∧
    mainImmediateExit .usageStderr = some 1 ∧
    (∀ args : List String, args.length ≠ 2 →
      mainDispatch (prog :: "encrypt" :: args) =
        .argError "encrypt needs a key filename and a message" ∧
      mainDispatch (prog :: "decrypt" :: args) =
        .argError "decrypt needs a key filename and a ciphertext") ∧
    (∀ args : List String, args.length ≠ 1 →
      mainDispatch (prog :: "genkey" :: args) =
        .argError "genkey needs a number of bits") ∧
    (∀ msg, mainImmediateExit (.argError msg) = some 1) ∧
    (∀ msg, printsUsage (.argError msg) = false) := by
  obtain ⟨h1, h2, h3, h4, h5, h6⟩ := hcmd
  refine ⟨rfl, rfl, ?_, rfl, ?_, ?_, fun msg => rfl, fun msg => rfl⟩
  · simp [mainDispatch, h1, h2, h3, h4, h5, h6]
  · intro args hlen
    exact ⟨by simp [mainDispatch, hlen], by simp [mainDispatch, hlen]⟩
  · intro args hlen
    simp [mainDispatch, hlen]

/-- Witness for the amended C4: unknown command "frobnicate" falls to usage,
`encrypt` with one trailing argument (argc 3) and `genkey` with two (argc 4)
get their subcommand diagnostics. -/
theorem main_bad_invocation_witness :
    mainDispatch ["rsa", "frobnicate"] = .usageStderr ∧
    mainDispatch ["rsa", "encrypt", "k"] =
      .argError "encrypt needs a key filename and a message" ∧
    mainDispatch ["rsa", "genkey", "1024", "x"] =
      .argError "genkey needs a number of bits" :=
  ⟨(main_bad_invocation "rsa" "frobnicate" []
      ⟨by decide, by decide, by decide, by decide, by decide, by decide⟩).2.2.1,
   ((main_bad_invocation "rsa" "frobnicate" []
      ⟨by decide, by decide, by decide, by decide, by decide, by decide⟩).2.2.2.2.1
      ["k"] (by decide)).1,
   (main_bad_invocation "rsa" "frobnicate" []
      ⟨by decide, by decide, by decide, by decide, by decide, by decide⟩).2.2.2.2.2.1
      ["1024", "x"] (by decide)⟩

/-- C5: `decrypt <keyfile> notanumber` fails the `mpz_set_str` parse and,
whatever the key file would have yielded, exits 1 with
"could not parse ciphertext" on standard error and nothing on standard
output. -/
theorem decrypt_notanumber_parse_error (keyLoad : Option RsaKey) :
    decrypt_mode ['n', 'o', 't', 'a', 'n', 'u', 'm', 'b', 'e', 'r'] keyLoad =
      ⟨1, some "could not parse ciphertext", [], false⟩ := by
  have hp : mpz_set_str10 ['n', 'o', 't', 'a', 'n', 'u', 'm', 'b', 'e', 'r'] = none := by
    decide
  unfold decrypt_mode
  rw [hp]

/-- Witness for C5 with a readable key file (`some key`). -/
theorem decrypt_notanumber_parse_error_witness :
    decrypt_mode ['n', 'o', 't', 'a', 'n', 'u', 'm', 'b', 'e', 'r'] (some ⟨15, 3, 3⟩) =
      ⟨1, some "could not parse ciphertext", [], false⟩ :=
  decrypt_notanumber_parse_error (some ⟨15, 3, 3⟩)

/-- C6: a `genkey` bit-count argument on which `strtoul` performs no
conversion, or overflows, or leaves trailing characters, or yields a value
above `UINT_MAX`, is exactly the case in which `genkey_mode` never reaches
`rsa_genkey`, exits 1, and prints a message to standard error. -/
theorem genkey_rejects_bad_numbits (s : List Char) :
    ((strtoul10 s).consumed = 0 ∨ (strtoul10 s).erange = true ∨
     (strtoul10 s).consumed ≠ s.length ∨ UINT_MAX < (strtoul10 s).value) ↔
    ((genkey_mode s).genkeyCalled = none ∧ (genkey_mode s).exitCode = 1 ∧
     (genkey_mode s).stderrMsg.isSome = true) := by
  unfold genkey_mode
  by_cases hp : (strtoul10 s).consumed = 0 ∨ (strtoul10 s).erange = true ∨
      (strtoul10 s).consumed ≠ s.length
  · rw [if_pos hp]
    constructor
    · intro _; exact ⟨rfl, rfl, rfl⟩
    · intro _
      rcases hp with h | h | h
      · exact Or.inl h
      · exact Or.inr (Or.inl h)
      · exact Or.inr (Or.inr (Or.inl h))
  · rw [if_neg hp]
    by_cases hv : UINT_MAX < (strtoul10 s).value
    · rw [if_pos hv]
      constructor
      · intro _; exact ⟨rfl, rfl, rfl⟩
      · intro _; exact Or.inr (Or.inr (Or.inr hv))
    · rw [if_neg hv]
      constructor
      · intro h
        rcases h with h | h | h | h
        · exact absurd (Or.inl h) hp
        · exact absurd (Or.inr (Or.inl h)) hp
        · exact absurd (Or.inr (Or.inr h)) hp
        · exact absurd h hv
      · intro h
        simp at h

/-- Witness for C6 at the unparseable argument "abc". -/
theorem genkey_rejects_bad_numbits_witness :
    (genkey_mode ['a', 'b', 'c']).genkeyCalled = none ∧
    (genkey_mode ['a', 'b', 'c']).exitCode = 1 ∧
    (genkey_mode ['a', 'b', 'c']).stderrMsg.isSome = true :=
  (genkey_rejects_bad_numbits ['a', 'b', 'c']).mp (by decide)

/-- C9: `mpz_set_str` accepts a leading minus sign, so the ciphertext "-5"
parses to `-5` and `decrypt_mode` proceeds past the parse to key loading and
decryption; with the key `n = 15, e = 3, d = 3` it decrypts `-5` to
`(-5)^3 mod 15 = 10` and exits 0. -/
theorem decrypt_accepts_negative_ciphertext :
    mpz_set_str10 ['-', '5'] = some (-5) ∧
    (∀ keyLoad,
      (decrypt_mode ['-', '5'] keyLoad).stderrMsg ≠ some "could not parse ciphertext" ∧
      (decrypt_mode ['-', '5'] keyLoad).keyLoadAttempted = true) ∧
    decrypt_mode ['-', '5'] (some ⟨15, 3, 3⟩) = ⟨0, none, [10], true⟩ := by
  have hp : mpz_set_str10 ['-', '5'] = some (-5) := by decide
  exact ⟨hp,
    fun keyLoad => ⟨(decrypt_mode_after_parse ['-', '5'] (-5) keyLoad hp).2,
                    (decrypt_mode_after_parse ['-', '5'] (-5) keyLoad hp).1⟩,
    by decide⟩

/-- C10: every ciphertext string rejected by `mpz_set_str` makes
`decrypt_mode` exit 1 with "could not parse ciphertext", no standard-output
bytes, and no attempt to load the key file — whatever state the key file is
in. -/
theorem decrypt_parse_before_key_load (cstr : List Char) (keyLoad : Option RsaKey)
    (hp : mpz_set_str10 cstr = none) :
    decrypt_mode cstr keyLoad = ⟨1, some "could not parse ciphertext", [], false⟩ := by
  unfold decrypt_mode
  rw [hp]

/-- Witness for C10 at the malformed ciphertext "12a" with a malformed key
file (`none`). -/
theorem decrypt_parse_before_key_load_witness :
    mpz_set_str10 ['1', '2', 'a'] = none ∧
    decrypt_mode ['1', '2', 'a'] none = ⟨1, some "could not parse ciphertext", [], false⟩ :=
  ⟨by decide, decrypt_parse_before_key_load ['1', '2', 'a'] none (by decide)⟩

end RsaCli
